import Mathlib

/-!
Verification of the filtering / grouping / sorting pipeline of the qrmenu web
client (public menu view and admin panel).  JavaScript strings are modelled as
lists of characters; the JS builtins used by the source (`trim`, `toLowerCase`,
`includes`, `localeCompare` with Turkish collation, `Array.prototype.sort`,
`Map` with insertion order) are given executable Lean models, and the pipeline
functions are translated from `src/app/page.tsx`, `src/app/menu/MenuClient.tsx`
and `src/app/admin/page.tsx`.
-/

namespace QrMenu

open List

/-- JavaScript strings are modelled as lists of characters. -/
abbrev Str := List Char

/-- Whitespace test backing the model of the JS `String.prototype.trim` builtin
(the whitespace characters that can realistically occur in the app's data). -/
def jsWhitespace (c : Char) : Bool :=
  c == ' ' || c == '\t' || c == '\n' || c == '\r'

/-- Model of the JS `String.prototype.trim` builtin: drop leading and trailing
whitespace. -/
def jsTrim (s : Str) : Str :=
  ((s.dropWhile jsWhitespace).reverse.dropWhile jsWhitespace).reverse

/-- Case-mapping table backing the model of the JS `String.prototype.toLowerCase`
builtin: ASCII capitals and the Turkish capitals used by the app (simple case
mapping; the dotted capital I is mapped to the plain dotted lowercase i). -/
def lowerPairs : List (Char × Char) :=
  [('A', 'a'), ('B', 'b'), ('C', 'c'), ('D', 'd'), ('E', 'e'), ('F', 'f'),
   ('G', 'g'), ('H', 'h'), ('I', 'i'), ('J', 'j'), ('K', 'k'), ('L', 'l'),
   ('M', 'm'), ('N', 'n'), ('O', 'o'), ('P', 'p'), ('Q', 'q'), ('R', 'r'),
   ('S', 's'), ('T', 't'), ('U', 'u'), ('V', 'v'), ('W', 'w'), ('X', 'x'),
   ('Y', 'y'), ('Z', 'z'),
   ('Ç', 'ç'), ('Ğ', 'ğ'), ('İ', 'i'), ('Ö', 'ö'), ('Ş', 'ş'), ('Ü', 'ü')]

/-- Per-character model of the JS `String.prototype.toLowerCase` builtin:
a character in the case-mapping table is replaced, every other character is
kept unchanged. -/
def jsLowerChar (c : Char) : Char :=
  match lowerPairs.find? (fun p => p.1 == c) with
  | some p => p.2
  | none => c

/-- Model of the JS `String.prototype.toLowerCase` builtin on whole strings. -/
def jsToLower (s : Str) : Str := s.map jsLowerChar

/-- The `normalize` helper of the source (identical in `page.tsx`,
`MenuClient.tsx` and `admin/page.tsx`): the JS guard maps a falsy (empty)
string to the empty string, then trims, then lowercases. -/
def normalize (s : Str) : Str :=
  jsToLower (jsTrim (if s.isEmpty then [] else s))

/-- The `normalize` helper applied to a possibly absent (undefined) string:
the JS guard turns an absent input into the empty string. -/
def normalizeOpt : Option Str → Str
  | none => jsToLower (jsTrim [])
  | some s => normalize s

/-! Turkish collation model (JS `localeCompare` with locale "tr"). -/

/-- Lexicographic comparison of lists of naturals; this backs the model of the
JS `String.prototype.localeCompare` builtin. -/
def listCompare : List Nat → List Nat → Ordering
  | [], [] => .eq
  | [], _ :: _ => .lt
  | _ :: _, [] => .gt
  | a :: as, b :: bs => (compare a b).then (listCompare as bs)

/-- Turkish case folding used by the collation model: capital dotless I pairs
with lowercase dotless i (as in ICU Turkish collation); everything else is
folded by the lowercase table. -/
def trFoldChar (c : Char) : Char :=
  if c = 'I' then 'ı' else jsLowerChar c

/-- Lowercase Turkish alphabet in collation order (with q, w, x in their Latin
positions). -/
def trAlphabet : List Char :=
  ['a', 'b', 'c', 'ç', 'd', 'e', 'f', 'g', 'ğ', 'h', 'ı', 'i', 'j', 'k', 'l',
   'm', 'n', 'o', 'ö', 'p', 'q', 'r', 's', 'ş', 't', 'u', 'ü', 'v', 'w', 'x',
   'y', 'z']

/-- Primary collation weight: Turkish alphabet order on folded letters, shifted
code-point order for everything else; every weight is positive. -/
def trPrimary (c : Char) : Nat :=
  match trAlphabet.findIdx? (fun d => d == trFoldChar c) with
  | some i => 2000 + i
  | none => (trFoldChar c).toNat + 1

/-- Case level of the collation model: folded (lowercase) characters weigh less
than characters changed by folding (uppercase); every weight is positive. -/
def caseRank (c : Char) : Nat :=
  if trFoldChar c = c then 1 else 2

/-- Collation key of the model of JS `localeCompare(..., "tr")`: a primary
(case-insensitive) segment, a case segment and a code-point segment, joined by
zero separators (every weight in the first two segments is positive, so the
plain lexicographic comparison of keys acts level by level). -/
def collKey (s : Str) : List Nat :=
  s.map trPrimary ++ (0 :: (s.map caseRank ++ (0 :: s.map Char.toNat)))

/-- Model of the JS `String.prototype.localeCompare` builtin with the Turkish
locale, presented as an `Ordering`. -/
def trCompare (a b : Str) : Ordering := listCompare (collKey a) (collKey b)

/-- How the model of `Array.prototype.sort` reads a comparator verdict: an
element stays in front unless the comparator says it is greater. -/
def ordLe (o : Ordering) : Bool :=
  match o with
  | .gt => false
  | _ => true

/-- The sort order on strings induced by the Turkish collation model. -/
def trLe (a b : Str) : Bool := ordLe (trCompare a b)

/-- Case-insensitive comparison: the primary level of the collation model. -/
def ciLe (a b : Str) : Bool :=
  ordLe (listCompare (a.map trPrimary) (b.map trPrimary))

/-! The data model and the pipeline functions of the source. -/

/-- Model of a JS number as it occurs in this app (price values): not-a-number,
an infinity, or a finite value modelled as a rational. -/
inductive JsNum where
  | nan
  | posInf
  | negInf
  | fin (q : ℚ)
deriving DecidableEq, Repr

/-- Model of the JS `Number.isFinite` builtin. -/
def JsNum.isFinite : JsNum → Bool
  | .fin _ => true
  | _ => false

/-- Model of the JS comparison `p < 0` on numbers (false for NaN). -/
def JsNum.isNeg : JsNum → Bool
  | .fin q => decide (q < 0)
  | .negInf => true
  | _ => false

/-- Model of JS subtraction on numbers, as used by the price sort comparators. -/
def JsNum.sub : JsNum → JsNum → JsNum
  | .nan, _ => .nan
  | _, .nan => .nan
  | .posInf, .posInf => .nan
  | .posInf, _ => .posInf
  | .negInf, .negInf => .nan
  | .negInf, _ => .negInf
  | .fin _, .posInf => .negInf
  | .fin _, .negInf => .posInf
  | .fin a, .fin b => .fin (a - b)

/-- How the model of `Array.prototype.sort` reads a numeric comparator result:
the sign of the number, a NaN result counting as zero. -/
def JsNum.toOrdering : JsNum → Ordering
  | .nan => .eq
  | .posInf => .gt
  | .negInf => .lt
  | .fin q => if q < 0 then .lt else if 0 < q then .gt else .eq

/-- The MenuItem record (`type MenuItem` in all three source files). -/
structure MenuItem where
  id : Int
  name : Str
  price : JsNum
  category : Str
  isAvailable : Bool
  imageUrl : Option Str
  description : Option Str
deriving DecidableEq, Repr

/-- The sentinel category token meaning "no filter". -/
def sentinelAll : Str := ("Tümü").toList

/-- The availability filter of the public view (the `activeItems` memo of
`page.tsx` and `MenuClient.tsx`). -/
def activeItems (all : List MenuItem) : List MenuItem :=
  all.filter (fun x => x.isAvailable)

/-- The category-filter step shared by the public `filtered` memo and the admin
`filteredMenu` memo: the sentinel passes the list through, otherwise an item is
kept exactly when its normalized category equals the normalized selection. -/
def categoryFilterStep (activeCategory : Str) (items : List MenuItem) :
    List MenuItem :=
  if activeCategory = sentinelAll then items
  else items.filter (fun x => normalize x.category == normalize activeCategory)

/-- Model of the JS `String.prototype.includes` builtin. -/
def jsIncludes (s q : Str) : Bool := decide (q <:+: s)

/-- The search-filter step shared by the public `filtered` memo and the admin
`filteredMenu` memo: an empty normalized query passes the list through,
otherwise an item is kept exactly when the normalized query occurs in the
normalized name or the normalized category. -/
def searchFilterStep (search : Str) (items : List MenuItem) : List MenuItem :=
  let q := normalize search
  if q.isEmpty then items
  else items.filter
    (fun x => jsIncludes (normalize x.name) q || jsIncludes (normalize x.category) q)

/-- The public view's `filtered` memo: category filter, then search filter,
over the available items. -/
def publicFiltered (all : List MenuItem) (activeCategory search : Str) :
    List MenuItem :=
  searchFilterStep search (categoryFilterStep activeCategory (activeItems all))

/-- One step of the model of the stable JS `Array.prototype.sort`: the new
(later) element is inserted behind every earlier element that the comparator
does not place strictly after it, so elements that compare as equal keep their
original relative order. -/
def insertSorted (le : α → α → Bool) (x : α) : List α → List α
  | [] => [x]
  | y :: ys => if le y x then y :: insertSorted le x ys else x :: y :: ys

/-- Model of the stable JS `Array.prototype.sort` with a comparator `cmp`:
insertion sort processing the array left to right, with
`le a b` meaning the comparator verdict `cmp a b` is not positive. -/
def sortBy (le : α → α → Bool) (l : List α) : List α :=
  l.foldl (fun acc x => insertSorted le x acc) []

/-- The group key used by `grouped`: the item's category, trimmed but not
lowercased, with the synthetic bucket for empty or whitespace-only values. -/
def groupKey (c : Str) : Str :=
  let c1 := if c.isEmpty then ("Diğer").toList else c
  if (jsTrim c1).isEmpty then ("Diğer").toList else jsTrim c1

/-- One step of building the grouping map: JS `Map` iterates in insertion
order, so the map is an association list; a new key goes to the back, an
existing key has the item pushed onto its group. -/
def insertItem : List (Str × List MenuItem) → Str → MenuItem →
    List (Str × List MenuItem)
  | [], k, x => [(k, [x])]
  | (k1, xs) :: rest, k, x =>
      if k1 = k then (k1, xs ++ [x]) :: rest else (k1, xs) :: insertItem rest k x

/-- The grouping map of `grouped` after its first loop. -/
def buildMap (l : List MenuItem) : List (Str × List MenuItem) :=
  l.foldl (fun m x => insertItem m (groupKey x.category) x) []

/-- The within-group comparator of `grouped`: compare names by Turkish
collation. -/
def nameLe (a b : MenuItem) : Bool := ordLe (trCompare a.name b.name)

/-- The preferred category order (the `CATEGORY_ORDER` constant of the
source). -/
def CATEGORY_ORDER : List Str :=
  [("Kahvaltı").toList, ("Burger").toList, ("Tost").toList,
   ("Atıştırmalık").toList, ("Soğuk İçecek").toList, ("Sıcak İçecek").toList,
   ("Wrap").toList, ("Tavuklar").toList, ("Makarna").toList,
   ("Kokteyller").toList, ("Nargile").toList]

/-- Key lookup in the grouping map (JS `map.get`, total here because the
source only calls it on present keys). -/
def mapGet (m : List (Str × List MenuItem)) (k : Str) : List MenuItem :=
  match m.find? (fun kv => kv.1 == k) with
  | some kv => kv.2
  | none => []

/-- Key membership in the grouping map (JS `map.has`). -/
def mapHas (m : List (Str × List MenuItem)) (k : Str) : Bool :=
  (m.find? (fun kv => kv.1 == k)).isSome

/-- The grouping map of `grouped` after its second loop: each group sorted by
name under Turkish collation (the JS in-place sort of each group's array,
stable, modelled by `sortBy`). -/
def groupedMap (filtered : List MenuItem) : List (Str × List MenuItem) :=
  (buildMap filtered).map (fun kv => (kv.1, sortBy nameLe kv.2))

/-- The `grouped` memo of the public view (`page.tsx`, `MenuClient.tsx`):
group the filtered items by `groupKey`, sort each group by name under Turkish
collation, then emit the preferred categories present in the data in
`CATEGORY_ORDER` order followed by the remaining keys sorted by the same
collation. -/
def grouped (filtered : List MenuItem) : List (Str × List MenuItem) :=
  let m := groupedMap filtered
  let ordered := (CATEGORY_ORDER.filter (fun c => mapHas m c)).map
    (fun c => (c, mapGet m c))
  let extras := (sortBy trLe ((m.map Prod.fst).filter
    (fun k => !CATEGORY_ORDER.contains k))).map
    (fun k => (k, mapGet m k))
  ordered ++ extras

/-- The admin sort-mode union type (`type SortMode` in `admin/page.tsx`). -/
inductive SortMode where
  | default
  | price_asc
  | price_desc
  | name_asc
deriving DecidableEq, Repr

/-- The comparator of the admin default sort mode: available items first, then
the raw (untrimmed, unlowercased) category under Turkish collation, then the
name under Turkish collation. -/
def defaultCmp (a b : MenuItem) : Ordering :=
  if a.isAvailable != b.isAvailable then (if a.isAvailable then .lt else .gt)
  else
    let c := trCompare a.category b.category
    if c ≠ .eq then c else trCompare a.name b.name

/-- The admin `filteredMenu` memo: copy the menu, apply the search filter, then
the category filter, then the selected sort mode (a stable in-place JS sort on
the copy, modelled by `sortBy`). -/
def filteredMenu (menu : List MenuItem) (search categoryFilter : Str)
    (sortMode : SortMode) : List MenuItem :=
  let items := menu
  let items := searchFilterStep search items
  let items := categoryFilterStep categoryFilter items
  match sortMode with
  | .price_asc =>
      sortBy (fun a b => ordLe (JsNum.toOrdering (a.price.sub b.price))) items
  | .price_desc =>
      sortBy (fun a b => ordLe (JsNum.toOrdering (b.price.sub a.price))) items
  | .name_asc => sortBy (fun a b => ordLe (trCompare a.name b.name)) items
  | .default => sortBy (fun a b => ordLe (defaultCmp a b)) items

/-- The `validateItem` helper of the admin page: an error message for a blank
name, a blank category, a non-finite price or a negative price, `none`
otherwise. -/
def validateItem (n c : Str) (p : JsNum) : Option Str :=
  if (jsTrim n).isEmpty then some (("Ürün adı boş olamaz.").toList)
  else if (jsTrim c).isEmpty then some (("Kategori boş olamaz.").toList)
  else if !p.isFinite then some (("Fiyat sayı olmalı.").toList)
  else if p.isNeg then some (("Fiyat negatif olamaz.").toList)
  else none

/-- First externally visible action of a create or update attempt in the admin
page: either the blocking alert raised by validation, or the network request. -/
inductive MutationStart where
  | alert (msg : Str)
  | request (name : Str) (price : JsNum) (category : Str) (isAvailable : Bool)
      (imageUrl : Option Str) (description : Option Str)
deriving DecidableEq, Repr

/-- The `createItem` handler of the admin page up to its first external
effect: a validation failure alerts and returns before the fetch; otherwise
the POST request is issued with trimmed fields (`saveEdit` has the same
validation-then-request shape). -/
def createItem (name : Str) (price : JsNum) (category : Str)
    (isAvailable : Bool) (imageUrl description : Str) : MutationStart :=
  match validateItem name category price with
  | some err => .alert err
  | none =>
      .request (jsTrim name) price (jsTrim category) isAvailable
        (if (jsTrim imageUrl).isEmpty then none else some (jsTrim imageUrl))
        (if (jsTrim description).isEmpty then none else some (jsTrim description))

/-! Lemmas about `grouped`. -/

/-- Keys of the preferred (first) segment of `grouped`. -/
def preKeys (l : List MenuItem) : List Str :=
  CATEGORY_ORDER.filter (fun c => mapHas (groupedMap l) c)

/-- Keys of the alphabetical (second) segment of `grouped`. -/
def postKeys (l : List MenuItem) : List Str :=
  sortBy trLe (((groupedMap l).map Prod.fst).filter
    (fun k => !CATEGORY_ORDER.contains k))

/-! The admin default sort comparator. -/

/-- Availability level of the admin default comparator. -/
def cmpAvail (a b : MenuItem) : Ordering :=
  if a.isAvailable != b.isAvailable then (if a.isAvailable then .lt else .gt)
  else .eq

/-- Category level of the admin default comparator (raw category strings). -/
def cmpCat (a b : MenuItem) : Ordering := trCompare a.category b.category

/-- Name level of the admin default comparator. -/
def cmpName (a b : MenuItem) : Ordering := trCompare a.name b.name

/-- The admin default ordering as claim C3 states it, written from the spec's
words for comparison with the code (a refinement definition, not a source
translation): available items first, then the NORMALIZED category under
locale comparison, then the name. -/
def specDefaultLe (a b : MenuItem) : Prop :=
  (a.isAvailable = true ∧ b.isAvailable = false) ∨
    (a.isAvailable = b.isAvailable ∧
      (trCompare (normalize a.category) (normalize b.category) = .lt ∨
        (normalize a.category = normalize b.category ∧
          trCompare a.name b.name ≠ .gt)))

instance (a b : MenuItem) : Decidable (specDefaultLe a b) := by
  unfold specDefaultLe
  infer_instance

/-- Two available items whose categories differ only by a leading space:
normalization makes the categories equal, but the code compares the raw
category strings. -/
def cexI1 : MenuItem :=
  ⟨1, ("z").toList, .fin 10, (" Burger").toList, true, none, none⟩

/-- Companion item for the C3 counterexample. -/
def cexI2 : MenuItem :=
  ⟨2, ("a").toList, .fin 10, ("Burger").toList, true, none, none⟩

/-- Two items the default comparator ties (same availability, category and
name), used to exhibit the stable tie-break. -/
def cexW1 : MenuItem :=
  ⟨3, ("Çay").toList, .fin 10, ("Burger").toList, true, none, none⟩

/-- Companion tied item for the stability witness. -/
def cexW2 : MenuItem :=
  ⟨4, ("Çay").toList, .fin 20, ("Burger").toList, true, none, none⟩

/-- Burger item for the filter witnesses. -/
def wBurger : MenuItem :=
  ⟨10, ("Ham").toList, .fin 5, ("Burger").toList, true, none, none⟩

/-- Toast item for the filter witnesses. -/
def wToast : MenuItem :=
  ⟨11, ("Tost A").toList, .fin 5, ("Toast").toList, true, none, none⟩

/-- Item used by the search-filter witness. -/
def wDeluxe : MenuItem :=
  ⟨12, ("Burger Deluxe").toList, .fin 5, ("Burger").toList, true, none, none⟩

/-- Item whose category is lowercase burger, for the C10 witness. -/
def wLowerB : MenuItem :=
  ⟨13, ("Veg").toList, .fin 5, ("burger").toList, true, none, none⟩

/-! Claim C9: the pipelines do not mutate the source array.  A heap model of
JS array objects: references are allocation indices. -/

/-- A heap of JS array objects; indices at or above `next` are unallocated. -/
structure Store where
  arrays : Nat → List MenuItem
  next : Nat

/-- Read an array from the heap. -/
def Store.read (σ : Store) (r : Nat) : List MenuItem := σ.arrays r

/-- Overwrite an array in place (models the JS in-place `sort`). -/
def Store.write (σ : Store) (r : Nat) (v : List MenuItem) : Store :=
  ⟨fun i => if i = r then v else σ.arrays i, σ.next⟩

/-- Allocate a fresh array (models array literals, spreads and `filter`
results, which are all new arrays). -/
def Store.alloc (σ : Store) (v : List MenuItem) : Nat × Store :=
  (σ.next, ⟨fun i => if i = σ.next then v else σ.arrays i, σ.next + 1⟩)

/-- The grouping loop allocates one fresh array per group (each group array
is created inside the loop and pushed into). -/
def allocGroups : List (Str × List MenuItem) → Store → List (Str × Nat) × Store
  | [], σ => ([], σ)
  | kv :: rest, σ =>
      let a := σ.alloc kv.2
      let r := allocGroups rest a.2
      ((kv.1, a.1) :: r.1, r.2)

/-- The per-group sorting loop: each group's array is sorted in place (a heap
write). -/
def sortGroupsInPlace : List (Str × Nat) → Store → Store
  | [], σ => σ
  | kr :: rest, σ =>
      sortGroupsInPlace rest (σ.write kr.2 (sortBy nameLe (σ.read kr.2)))

/-- The comparator the admin sort modes hand to the JS sort. -/
def adminSortLe (mode : SortMode) : MenuItem → MenuItem → Bool :=
  match mode with
  | .price_asc => fun a b => ordLe (JsNum.toOrdering (a.price.sub b.price))
  | .price_desc => fun a b => ordLe (JsNum.toOrdering (b.price.sub a.price))
  | .name_asc => fun a b => ordLe (trCompare a.name b.name)
  | .default => fun a b => ordLe (defaultCmp a b)

/-- The public pipeline on the heap, mirroring the aliasing and mutation
behaviour of the source: the availability filter and each applied filter
allocate fresh arrays, plain assignment aliases a reference, grouping
allocates one fresh array per group and then sorts each in place.  The final
two-tier reordering of (key, array) pairs builds no array and writes none, so
the group references are returned in insertion order. -/
def publicPipelineSt (σ0 : Store) (allRef : Nat) (activeCategory search : Str) :
    List (Str × Nat) × Nat × Store :=
  let a1 := σ0.alloc ((σ0.read allRef).filter (fun x => x.isAvailable))
  let s2 :=
    if activeCategory = sentinelAll then (a1.1, a1.2)
    else a1.2.alloc ((a1.2.read a1.1).filter
      (fun x => normalize x.category == normalize activeCategory))
  let s3 :=
    if (normalize search).isEmpty then (s2.1, s2.2)
    else s2.2.alloc ((s2.2.read s2.1).filter (fun x =>
      jsIncludes (normalize x.name) (normalize search)
        || jsIncludes (normalize x.category) (normalize search)))
  let g := allocGroups (buildMap (s3.2.read s3.1)) s3.2
  (g.1, s3.1, sortGroupsInPlace g.1 g.2)

/-- The admin pipeline on the heap: the spread copy and each applied filter
allocate fresh arrays; the chosen sort happens in place on the final items
array (a heap write). -/
def adminPipelineSt (σ0 : Store) (menuRef : Nat) (search catF : Str)
    (mode : SortMode) : Nat × Store :=
  let a1 := σ0.alloc (σ0.read menuRef)
  let s2 :=
    if (normalize search).isEmpty then (a1.1, a1.2)
    else a1.2.alloc ((a1.2.read a1.1).filter (fun x =>
      jsIncludes (normalize x.name) (normalize search)
        || jsIncludes (normalize x.category) (normalize search)))
  let s3 :=
    if catF = sentinelAll then (s2.1, s2.2)
    else s2.2.alloc ((s2.2.read s2.1).filter
      (fun x => normalize x.category == normalize catF))
  (s3.1, s3.2.write s3.1 (sortBy (adminSortLe mode) (s3.2.read s3.1)))

/-- A one-array heap holding a demo menu, for the mutation-freedom witness. -/
def demoStore : Store := ⟨fun _ => [wBurger, wToast], 1⟩

theorem lowerPairs_snd_not_found :
    ∀ p ∈ lowerPairs, lowerPairs.find? (fun q => q.1 == p.2) = none := by
  decide

theorem lowerPairs_ws :
    ∀ p ∈ lowerPairs, jsWhitespace p.2 = jsWhitespace p.1 := by
  decide

theorem jsLowerChar_idem (c : Char) : jsLowerChar (jsLowerChar c) = jsLowerChar c := by
  unfold jsLowerChar
  cases h : lowerPairs.find? (fun p => p.1 == c) with
  | none => rw [h]
  | some p =>
      rw [lowerPairs_snd_not_found p (List.mem_of_find?_eq_some h)]

theorem jsWhitespace_jsLowerChar (c : Char) :
    jsWhitespace (jsLowerChar c) = jsWhitespace c := by
  unfold jsLowerChar
  cases h : lowerPairs.find? (fun p => p.1 == c) with
  | none => rfl
  | some p =>
      have hc : p.1 = c := by
        have := List.find?_some h
        simpa using this
      rw [lowerPairs_ws p (List.mem_of_find?_eq_some h), hc]

theorem dropWhile_dropWhile (p : α → Bool) (l : List α) :
    (l.dropWhile p).dropWhile p = l.dropWhile p := by
  induction l with
  | nil => rfl
  | cons a l ih =>
      by_cases h : p a
      · simp [List.dropWhile_cons, h, ih]
      · simp [List.dropWhile_cons, h]

theorem dropWhile_map_of_comm (p : α → Bool) (f : α → α)
    (hf : ∀ c, p (f c) = p c) (l : List α) :
    (l.map f).dropWhile p = (l.dropWhile p).map f := by
  induction l with
  | nil => rfl
  | cons a l ih =>
      by_cases h : p a
      · simp [List.dropWhile_cons, h, hf, ih]
      · simp [List.dropWhile_cons, h, hf]

theorem jsTrim_jsToLower_comm (s : Str) :
    jsTrim (jsToLower s) = jsToLower (jsTrim s) := by
  unfold jsTrim jsToLower
  rw [dropWhile_map_of_comm _ _ jsWhitespace_jsLowerChar, ← List.map_reverse,
    dropWhile_map_of_comm _ _ jsWhitespace_jsLowerChar, ← List.map_reverse]

theorem jsToLower_idem (s : Str) : jsToLower (jsToLower s) = jsToLower s := by
  unfold jsToLower
  rw [List.map_map]
  exact List.map_congr_left fun c _ => jsLowerChar_idem c

theorem dropWhile_eq_self_of_prefix (p : α → Bool) {x l : List α}
    (hl : l.dropWhile p = l) (hx : x <+: l) : x.dropWhile p = x := by
  cases x with
  | nil => rfl
  | cons a x =>
      obtain ⟨t, ht⟩ := hx
      subst ht
      simp only [List.cons_append] at hl ⊢
      by_cases h : p a
      · exfalso
        rw [List.dropWhile_cons, if_pos h] at hl
        have hle : (List.dropWhile p (x ++ t)).length ≤ (x ++ t).length :=
          (List.dropWhile_sublist p).length_le
        have hlen := congrArg List.length hl
        simp only [List.length_cons] at hlen
        omega
      · rw [List.dropWhile_cons, if_neg h]

theorem jsTrim_idem (s : Str) : jsTrim (jsTrim s) = jsTrim s := by
  have hpre : jsTrim s <+: s.dropWhile jsWhitespace := by
    rw [← List.reverse_suffix]
    unfold jsTrim
    rw [List.reverse_reverse]
    exact List.dropWhile_suffix _
  have hfix : (jsTrim s).dropWhile jsWhitespace = jsTrim s :=
    dropWhile_eq_self_of_prefix jsWhitespace (dropWhile_dropWhile jsWhitespace s) hpre
  show (((jsTrim s).dropWhile jsWhitespace).reverse.dropWhile jsWhitespace).reverse
      = jsTrim s
  rw [hfix]
  unfold jsTrim
  rw [List.reverse_reverse, dropWhile_dropWhile]

theorem normalize_eq (s : Str) : normalize s = jsToLower (jsTrim s) := by
  unfold normalize
  by_cases h : s.isEmpty
  · rw [if_pos h, List.isEmpty_iff.mp h]
  · rw [if_neg h]

theorem normalize_idem (s : Str) : normalize (normalize s) = normalize s := by
  rw [normalize_eq, normalize_eq s, jsTrim_jsToLower_comm, jsTrim_idem,
    jsToLower_idem]

theorem listCompare_swap : ∀ a b, (listCompare a b).swap = listCompare b a
  | [], [] => rfl
  | [], _ :: _ => rfl
  | _ :: _, [] => rfl
  | a :: as, b :: bs => by
      simp only [listCompare, Ordering.swap_then, Nat.compare_swap,
        listCompare_swap as bs]

theorem listCompare_eq_iff : ∀ a b, listCompare a b = .eq ↔ a = b
  | [], [] => by simp [listCompare]
  | [], _ :: _ => by simp [listCompare]
  | _ :: _, [] => by simp [listCompare]
  | a :: as, b :: bs => by
      simp [listCompare, Ordering.then_eq_eq, Nat.compare_eq_eq,
        listCompare_eq_iff as bs]

theorem listCompare_trans :
    ∀ (a b c : List Nat), listCompare a b ≠ .gt → listCompare b c ≠ .gt →
      listCompare a c ≠ .gt
  | [], _, c, _, _ => by cases c <;> simp [listCompare]
  | _ :: _, [], _, h1, _ => by simp [listCompare] at h1
  | _ :: _, _ :: _, [], _, h2 => by simp [listCompare] at h2
  | a :: as, b :: bs, c :: cs, h1, h2 => by
      simp only [listCompare, ne_eq, Ordering.then_eq_gt, not_or, not_and] at h1 h2 ⊢
      obtain ⟨h1a, h1b⟩ := h1
      obtain ⟨h2a, h2b⟩ := h2
      rw [Nat.compare_eq_gt] at h1a h2a
      refine ⟨by rw [Nat.compare_eq_gt]; omega, fun hac => ?_⟩
      rw [Nat.compare_eq_eq] at hac
      have hab : a = b := by omega
      have hbc : b = c := by omega
      exact listCompare_trans as bs cs (h1b (Nat.compare_eq_eq.mpr hab))
        (h2b (Nat.compare_eq_eq.mpr hbc))

/-- A separator below every weight: if the left parts (all of whose entries are
positive) already compare as greater, appending a zero separator and anything
after it cannot change the verdict. -/
theorem listCompare_sep_gt :
    ∀ {xs ys : List Nat}, (∀ x ∈ xs, 1 ≤ x) → (∀ y ∈ ys, 1 ≤ y) →
      ∀ (u v : List Nat), listCompare xs ys = .gt →
        listCompare (xs ++ 0 :: u) (ys ++ 0 :: v) = .gt := by
  intro xs
  induction xs with
  | nil => intro ys _ _ u v h; cases ys <;> simp [listCompare] at h
  | cons x xs ih =>
      intro ys hx hy u v h
      cases ys with
      | nil =>
          have hx1 : 1 ≤ x := hx x (by simp)
          simp only [List.cons_append, List.nil_append, listCompare]
          rw [Nat.compare_eq_gt.mpr (by omega : (0 : Nat) < x)]
          rfl
      | cons y ys =>
          simp only [List.cons_append, listCompare] at h ⊢
          rcases hcmp : compare x y with _ | _ | _ <;> rw [hcmp] at h
          · simp [Ordering.then] at h
          · exact ih (fun a ha => hx a (by simp [ha])) (fun a ha => hy a (by simp [ha]))
              u v h
          · rfl

theorem ordLe_iff {o : Ordering} : ordLe o = true ↔ o ≠ .gt := by
  cases o <;> simp [ordLe]

theorem trCompare_swap (a b : Str) : (trCompare a b).swap = trCompare b a :=
  listCompare_swap _ _

theorem trLe_total (a b : Str) : trLe a b || trLe b a := by
  unfold trLe
  rcases h : trCompare a b with _ | _ | _ <;> simp [ordLe]
  have := trCompare_swap a b
  rw [h] at this
  rw [← this]
  rfl

theorem trLe_trans (a b c : Str) : trLe a b → trLe b c → trLe a c := by
  unfold trLe
  simp only [ordLe_iff]
  exact listCompare_trans _ _ _

theorem collKey_inj {a b : Str} (h : collKey a = collKey b) : a = b := by
  have hlen : a.length = b.length := by
    have hl := congrArg List.length h
    simp [collKey] at hl
    omega
  unfold collKey at h
  have h1 : (0 : Nat) :: (a.map caseRank ++ (0 :: a.map Char.toNat))
      = 0 :: (b.map caseRank ++ (0 :: b.map Char.toNat)) :=
    List.append_inj_right h (by simp [hlen])
  injection h1 with _ h2
  have h3 : (0 : Nat) :: a.map Char.toNat = 0 :: b.map Char.toNat :=
    List.append_inj_right h2 (by simp [hlen])
  injection h3 with _ h4
  have hinj : Function.Injective Char.toNat := by
    intro c d hcd
    have := congrArg Char.ofNat hcd
    simpa using this
  exact List.map_injective_iff.mpr hinj h4

theorem trCompare_eq_iff {a b : Str} : trCompare a b = .eq ↔ a = b := by
  unfold trCompare
  rw [listCompare_eq_iff]
  exact ⟨fun h => collKey_inj h, fun h => by rw [h]⟩

theorem trPrimary_pos (c : Char) : 1 ≤ trPrimary c := by
  unfold trPrimary
  cases trAlphabet.findIdx? (fun d => d == trFoldChar c) with
  | none =>
      show 1 ≤ (trFoldChar c).toNat + 1
      omega
  | some i =>
      show 1 ≤ 2000 + i
      omega

/-- The sort order of the collation model refines its own case-insensitive
primary level. -/
theorem trLe_imp_ciLe {a b : Str} (h : trLe a b = true) : ciLe a b = true := by
  unfold trLe trCompare collKey at h
  unfold ciLe
  rw [ordLe_iff] at h ⊢
  intro hgt
  exact h (listCompare_sep_gt (fun x hx => by
      obtain ⟨c, _, hc⟩ := List.mem_map.mp hx
      rw [← hc]; exact trPrimary_pos c)
    (fun y hy => by
      obtain ⟨c, _, hc⟩ := List.mem_map.mp hy
      rw [← hc]; exact trPrimary_pos c) _ _ hgt)

theorem lowerPairs_snd_fixed :
    ∀ p ∈ lowerPairs, lowerPairs.find? (fun q => q.1 == p.2) = none ∧ p.2 ≠ 'I' := by
  decide

theorem jsLowerChar_ne_I (c : Char) : jsLowerChar c ≠ 'I' := by
  unfold jsLowerChar
  cases h : lowerPairs.find? (fun p => p.1 == c) with
  | none =>
      intro hc
      subst hc
      simp [lowerPairs, List.find?] at h
  | some p =>
      exact (lowerPairs_snd_fixed p (List.mem_of_find?_eq_some h)).2

theorem trFoldChar_idem (c : Char) : trFoldChar (trFoldChar c) = trFoldChar c := by
  unfold trFoldChar
  by_cases h : c = 'I'
  · rw [if_pos h, if_neg (by decide)]
    decide
  · rw [if_neg h, if_neg (jsLowerChar_ne_I c)]
    exact jsLowerChar_idem c

/-- The primary weight is case-insensitive: folding the case away does not
change it. -/
theorem trPrimary_fold (c : Char) : trPrimary (trFoldChar c) = trPrimary c := by
  unfold trPrimary
  rw [trFoldChar_idem]

/-- The case-insensitive comparison really is case-insensitive: it only sees
case-folded characters. -/
theorem ciLe_fold (a b : Str) :
    ciLe (a.map trFoldChar) (b.map trFoldChar) = ciLe a b := by
  unfold ciLe
  rw [List.map_map, List.map_map]
  have : (trPrimary ∘ trFoldChar) = trPrimary := funext trPrimary_fold
  rw [this]

theorem sublist_insertSorted (le : α → α → Bool) (x : α) :
    ∀ l : List α, l <+ insertSorted le x l
  | [] => List.nil_sublist _
  | y :: ys => by
      unfold insertSorted
      by_cases h : le y x
      · rw [if_pos h]
        exact (sublist_insertSorted le x ys).cons₂ y
      · rw [if_neg h]
        exact List.sublist_cons_self x (y :: ys)

theorem insertSorted_perm (le : α → α → Bool) (x : α) :
    ∀ l : List α, insertSorted le x l ~ x :: l
  | [] => List.Perm.refl _
  | y :: ys => by
      unfold insertSorted
      by_cases h : le y x
      · rw [if_pos h]
        exact ((insertSorted_perm le x ys).cons y).trans (List.Perm.swap x y ys)
      · rw [if_neg h]

theorem mem_insertSorted {le : α → α → Bool} {x z : α} {l : List α} :
    z ∈ insertSorted le x l ↔ z = x ∨ z ∈ l := by
  rw [(insertSorted_perm le x l).mem_iff, List.mem_cons]

theorem pairwise_insertSorted {le : α → α → Bool}
    (trans : ∀ a b c, le a b → le b c → le a c)
    (total : ∀ a b, le a b || le b a) (x : α) :
    ∀ {l : List α}, l.Pairwise (fun a b => le a b = true) →
      (insertSorted le x l).Pairwise (fun a b => le a b = true)
  | [], _ => by simp [insertSorted]
  | y :: ys, h => by
      rw [List.pairwise_cons] at h
      obtain ⟨hy, hys⟩ := h
      unfold insertSorted
      by_cases hyx : le y x
      · rw [if_pos hyx]
        rw [List.pairwise_cons]
        refine ⟨fun z hz => ?_, pairwise_insertSorted trans total x hys⟩
        rcases mem_insertSorted.mp hz with rfl | hz'
        · exact hyx
        · exact hy z hz'
      · rw [if_neg hyx]
        have hxy : le x y = true := by
          rcases Bool.or_eq_true_iff.mp (total y x) with h1 | h1
          · exact absurd h1 hyx
          · exact h1
        rw [List.pairwise_cons]
        refine ⟨fun z hz => ?_, List.pairwise_cons.mpr ⟨hy, hys⟩⟩
        rcases List.mem_cons.mp hz with rfl | hz'
        · exact hxy
        · exact trans x y z hxy (hy z hz')

theorem foldl_insertSorted_perm (le : α → α → Bool) :
    ∀ (l acc : List α),
      l.foldl (fun acc x => insertSorted le x acc) acc ~ acc ++ l
  | [], acc => by simp
  | x :: l, acc => by
      simp only [List.foldl_cons]
      refine (foldl_insertSorted_perm le l _).trans ?_
      refine (List.Perm.append_right l (insertSorted_perm le x acc)).trans ?_
      exact List.perm_middle.symm

theorem sortBy_perm (le : α → α → Bool) (l : List α) : sortBy le l ~ l := by
  simpa using foldl_insertSorted_perm le l []

theorem mem_sortBy {le : α → α → Bool} {x : α} {l : List α} :
    x ∈ sortBy le l ↔ x ∈ l :=
  (sortBy_perm le l).mem_iff

theorem foldl_insertSorted_pairwise {le : α → α → Bool}
    (trans : ∀ a b c, le a b → le b c → le a c)
    (total : ∀ a b, le a b || le b a) :
    ∀ (l acc : List α), acc.Pairwise (fun a b => le a b = true) →
      (l.foldl (fun acc x => insertSorted le x acc) acc).Pairwise
        (fun a b => le a b = true)
  | [], _, h => h
  | x :: l, acc, h => by
      simp only [List.foldl_cons]
      exact foldl_insertSorted_pairwise trans total l _
        (pairwise_insertSorted trans total x h)

theorem sortBy_sorted {le : α → α → Bool}
    (trans : ∀ a b c, le a b → le b c → le a c)
    (total : ∀ a b, le a b || le b a) (l : List α) :
    (sortBy le l).Pairwise (fun a b => le a b = true) :=
  foldl_insertSorted_pairwise trans total l [] List.Pairwise.nil

theorem insertSorted_pair {le : α → α → Bool}
    (trans : ∀ a b c, le a b → le b c → le a c)
    {a x : α} :
    ∀ {acc : List α}, acc.Pairwise (fun a b => le a b = true) → a ∈ acc →
      le a x → le x a → [a, x] <+ insertSorted le x acc
  | [], _, ha, _, _ => absurd ha (List.not_mem_nil a)
  | y :: ys, hp, ha, hax, hxa => by
      rw [List.pairwise_cons] at hp
      obtain ⟨hy, hys⟩ := hp
      unfold insertSorted
      by_cases hyx : le y x
      · rw [if_pos hyx]
        rcases List.mem_cons.mp ha with rfl | ha'
        · exact (List.singleton_sublist.mpr (mem_insertSorted.mpr (Or.inl rfl))).cons₂ a
        · exact (insertSorted_pair trans hys ha' hax hxa).cons y
      · rw [if_neg hyx]
        exfalso
        rcases List.mem_cons.mp ha with rfl | ha'
        · exact hyx hax
        · exact hyx (trans y a x (hy a ha') hax)

theorem foldl_insertSorted_pair_of_sublist {le : α → α → Bool}
    (trans : ∀ a b c, le a b → le b c → le a c)
    (total : ∀ a b, le a b || le b a) {a b : α} :
    ∀ (l acc : List α), acc.Pairwise (fun a b => le a b = true) →
      [a, b] <+ acc →
      [a, b] <+ l.foldl (fun acc x => insertSorted le x acc) acc
  | [], _, _, hs => hs
  | x :: l, acc, hp, hs => by
      simp only [List.foldl_cons]
      exact foldl_insertSorted_pair_of_sublist trans total l _
        (pairwise_insertSorted trans total x hp)
        (hs.trans (sublist_insertSorted le x acc))

theorem foldl_insertSorted_pair_of_mem {le : α → α → Bool}
    (trans : ∀ a b c, le a b → le b c → le a c)
    (total : ∀ a b, le a b || le b a) {a b : α}
    (hab : le a b) (hba : le b a) :
    ∀ (l acc : List α), acc.Pairwise (fun a b => le a b = true) →
      a ∈ acc → [b] <+ l →
      [a, b] <+ l.foldl (fun acc x => insertSorted le x acc) acc
  | [], _, _, _, hbl => by cases hbl
  | x :: l, acc, hp, ha, hbl => by
      simp only [List.foldl_cons]
      have hp' := pairwise_insertSorted trans total x hp
      cases hbl with
      | cons _ h' =>
          exact foldl_insertSorted_pair_of_mem trans total hab hba l _ hp'
            (mem_insertSorted.mpr (Or.inr ha)) h'
      | cons₂ _ _ =>
          exact foldl_insertSorted_pair_of_sublist trans total l _ hp'
            (insertSorted_pair trans hp ha hab hba)

theorem foldl_insertSorted_pair {le : α → α → Bool}
    (trans : ∀ a b c, le a b → le b c → le a c)
    (total : ∀ a b, le a b || le b a) {a b : α}
    (hab : le a b) (hba : le b a) :
    ∀ (l acc : List α), acc.Pairwise (fun a b => le a b = true) →
      [a, b] <+ l →
      [a, b] <+ l.foldl (fun acc x => insertSorted le x acc) acc
  | [], _, _, hs => by cases hs
  | x :: l, acc, hp, hs => by
      simp only [List.foldl_cons]
      have hp' := pairwise_insertSorted trans total x hp
      cases hs with
      | cons _ h' =>
          exact foldl_insertSorted_pair trans total hab hba l _ hp' h'
      | cons₂ _ h' =>
          exact foldl_insertSorted_pair_of_mem trans total hab hba l _ hp'
            (mem_insertSorted.mpr (Or.inl rfl)) h'

/-- Stability of the sort model: two elements the comparator ties keep their
original relative order. -/
theorem sortBy_pair {le : α → α → Bool}
    (trans : ∀ a b c, le a b → le b c → le a c)
    (total : ∀ a b, le a b || le b a) {a b : α}
    (hab : le a b) (hba : le b a) {l : List α} (h : [a, b] <+ l) :
    [a, b] <+ sortBy le l :=
  foldl_insertSorted_pair trans total hab hba l [] List.Pairwise.nil h

/-! Lemmas about the grouping map. -/

theorem insertItem_flatMap (m : List (Str × List MenuItem)) (k : Str)
    (x : MenuItem) :
    (insertItem m k x).flatMap (fun kv => kv.2) ~ x :: m.flatMap (fun kv => kv.2) := by
  induction m with
  | nil => simp [insertItem]
  | cons kv rest ih =>
      obtain ⟨k1, xs⟩ := kv
      unfold insertItem
      by_cases h : k1 = k
      · rw [if_pos h]
        simp only [List.flatMap_cons, List.append_assoc, List.singleton_append]
        exact List.perm_middle
      · rw [if_neg h]
        simp only [List.flatMap_cons]
        exact (List.Perm.append_left xs ih).trans List.perm_middle

theorem foldl_insertItem_flatMap :
    ∀ (l : List MenuItem) (m : List (Str × List MenuItem)),
      ((l.foldl (fun m x => insertItem m (groupKey x.category) x) m).flatMap
        (fun kv => kv.2)) ~ m.flatMap (fun kv => kv.2) ++ l
  | [], m => by simp
  | x :: l, m => by
      simp only [List.foldl_cons]
      refine (foldl_insertItem_flatMap l _).trans ?_
      refine (List.Perm.append_right l (insertItem_flatMap m _ x)).trans ?_
      exact List.perm_middle.symm

theorem buildMap_flatMap (l : List MenuItem) :
    (buildMap l).flatMap (fun kv => kv.2) ~ l := by
  simpa using foldl_insertItem_flatMap l []

theorem mapGet_cons (k1 : Str) (xs : List MenuItem)
    (rest : List (Str × List MenuItem)) (j : Str) :
    mapGet ((k1, xs) :: rest) j = if k1 = j then xs else mapGet rest j := by
  unfold mapGet
  by_cases h : k1 = j
  · rw [if_pos h, List.find?_cons_of_pos _ (by simpa using h)]
  · rw [if_neg h, List.find?_cons_of_neg _ (by simpa using h)]

theorem insertItem_cons_pos {k1 k : Str} (xs : List MenuItem) (rest) (x : MenuItem)
    (h : k1 = k) :
    insertItem ((k1, xs) :: rest) k x = (k1, xs ++ [x]) :: rest := by
  simp only [insertItem]
  rw [if_pos h]

theorem insertItem_cons_neg {k1 k : Str} (xs : List MenuItem) (rest) (x : MenuItem)
    (h : ¬k1 = k) :
    insertItem ((k1, xs) :: rest) k x = (k1, xs) :: insertItem rest k x := by
  simp only [insertItem]
  rw [if_neg h]

theorem mapGet_insertItem (m : List (Str × List MenuItem)) (k : Str)
    (x : MenuItem) (j : Str) :
    mapGet (insertItem m k x) j
      = if j = k then mapGet m j ++ [x] else mapGet m j := by
  induction m with
  | nil =>
      show mapGet [(k, [x])] j = _
      rw [mapGet_cons]
      by_cases h : j = k
      · rw [if_pos (h.symm), if_pos h]
        rfl
      · rw [if_neg (fun hh => h hh.symm), if_neg h]
  | cons kv rest ih =>
      obtain ⟨k1, xs⟩ := kv
      by_cases h1 : k1 = k
      · rw [insertItem_cons_pos xs rest x h1, mapGet_cons, mapGet_cons]
        by_cases h3 : k1 = j
        · have hjk : j = k := h3.symm.trans h1
          rw [if_pos h3, if_pos hjk, if_pos h3]
        · have hjk : ¬j = k := fun hh => h3 (h1.trans hh.symm)
          rw [if_neg h3, if_neg hjk, if_neg h3]
      · rw [insertItem_cons_neg xs rest x h1, mapGet_cons, mapGet_cons, ih]
        by_cases h3 : k1 = j
        · have hjk : ¬j = k := fun hh => h1 (h3.trans hh)
          rw [if_pos h3, if_neg hjk, if_pos h3]
        · rw [if_neg h3, if_neg h3]

theorem foldl_mapGet :
    ∀ (l : List MenuItem) (m : List (Str × List MenuItem)) (j : Str),
      mapGet (l.foldl (fun m x => insertItem m (groupKey x.category) x) m) j
        = mapGet m j ++ l.filter (fun x => groupKey x.category == j)
  | [], m, j => by simp
  | x :: l, m, j => by
      simp only [List.foldl_cons, List.filter_cons]
      rw [foldl_mapGet l _ j, mapGet_insertItem]
      by_cases h : j = groupKey x.category
      · rw [if_pos h, if_pos (by simpa using h.symm)]
        simp
      · rw [if_neg h, if_neg (by simpa using fun hc => h hc.symm)]

theorem buildMap_get (l : List MenuItem) (j : Str) :
    mapGet (buildMap l) j = l.filter (fun x => groupKey x.category == j) := by
  simpa using foldl_mapGet l [] j

theorem mapHas_iff {m : List (Str × List MenuItem)} {j : Str} :
    mapHas m j = true ↔ j ∈ m.map Prod.fst := by
  unfold mapHas
  simp [List.find?_isSome, List.mem_map]

theorem keys_insertItem_mem {m : List (Str × List MenuItem)} {k : Str}
    {x : MenuItem} {j : Str} :
    j ∈ (insertItem m k x).map Prod.fst ↔ j ∈ m.map Prod.fst ∨ j = k := by
  induction m with
  | nil => simp [insertItem]
  | cons kv rest ih =>
      obtain ⟨k1, xs⟩ := kv
      by_cases h : k1 = k
      · rw [insertItem_cons_pos xs rest x h]
        subst h
        simp only [List.map_cons, List.mem_cons]
        tauto
      · rw [insertItem_cons_neg xs rest x h]
        simp only [List.map_cons, List.mem_cons, ih]
        tauto

theorem keys_insertItem_nodup {m : List (Str × List MenuItem)} {k : Str}
    {x : MenuItem} (h : (m.map Prod.fst).Nodup) :
    ((insertItem m k x).map Prod.fst).Nodup := by
  induction m with
  | nil => simp [insertItem]
  | cons kv rest ih =>
      obtain ⟨k1, xs⟩ := kv
      simp only [List.map_cons, List.nodup_cons] at h
      obtain ⟨hk1, hrest⟩ := h
      by_cases hk : k1 = k
      · rw [insertItem_cons_pos xs rest x hk]
        simp only [List.map_cons, List.nodup_cons]
        exact ⟨hk1, hrest⟩
      · rw [insertItem_cons_neg xs rest x hk]
        simp only [List.map_cons, List.nodup_cons]
        refine ⟨fun hmem => ?_, ih hrest⟩
        rcases keys_insertItem_mem.mp hmem with hj | rfl
        · exact hk1 hj
        · exact hk rfl

theorem foldl_keys_mem :
    ∀ (l : List MenuItem) (m : List (Str × List MenuItem)) (j : Str),
      j ∈ ((l.foldl (fun m x => insertItem m (groupKey x.category) x) m).map
        Prod.fst)
        ↔ j ∈ m.map Prod.fst ∨ j ∈ l.map (fun x => groupKey x.category)
  | [], m, j => by simp
  | x :: l, m, j => by
      simp only [List.foldl_cons, List.map_cons, List.mem_cons]
      rw [foldl_keys_mem l _ j, keys_insertItem_mem]
      tauto

theorem buildMap_keys_mem {l : List MenuItem} {j : Str} :
    j ∈ (buildMap l).map Prod.fst ↔ j ∈ l.map (fun x => groupKey x.category) := by
  unfold buildMap
  rw [foldl_keys_mem]
  simp

theorem foldl_keys_nodup :
    ∀ (l : List MenuItem) (m : List (Str × List MenuItem)),
      (m.map Prod.fst).Nodup →
      ((l.foldl (fun m x => insertItem m (groupKey x.category) x) m).map
        Prod.fst).Nodup
  | [], _, h => h
  | x :: l, m, h => by
      simp only [List.foldl_cons]
      exact foldl_keys_nodup l _ (keys_insertItem_nodup h)

theorem buildMap_keys_nodup (l : List MenuItem) :
    ((buildMap l).map Prod.fst).Nodup :=
  foldl_keys_nodup l [] List.Pairwise.nil

theorem entries_eq_keys_map :
    ∀ (m : List (Str × List MenuItem)), (m.map Prod.fst).Nodup →
      m = (m.map Prod.fst).map (fun k => (k, mapGet m k))
  | [], _ => rfl
  | (k0, v0) :: rest, h => by
      simp only [List.map_cons, List.nodup_cons] at h
      obtain ⟨hk0, hrest⟩ := h
      simp only [List.map_cons]
      have hhead : mapGet ((k0, v0) :: rest) k0 = v0 := by
        unfold mapGet
        simp
      rw [hhead]
      have htail : (rest.map Prod.fst).map
          (fun k => (k, mapGet ((k0, v0) :: rest) k))
          = (rest.map Prod.fst).map (fun k => (k, mapGet rest k)) := by
        apply List.map_congr_left
        intro k hk
        have hne : (k0 == k) = false := by
          simp only [beq_eq_false_iff_ne, ne_eq]
          rintro rfl
          exact hk0 hk
        unfold mapGet
        rw [List.find?_cons_of_neg _ (by simp [hne])]
      rw [htail, ← entries_eq_keys_map rest hrest]

theorem groupedMap_keys (l : List MenuItem) :
    (groupedMap l).map Prod.fst = (buildMap l).map Prod.fst := by
  unfold groupedMap
  rw [List.map_map]
  rfl

theorem mapGet_groupedMap (l : List MenuItem) (j : Str) :
    mapGet (groupedMap l) j = sortBy nameLe (mapGet (buildMap l) j) := by
  unfold groupedMap mapGet
  rw [List.find?_map]
  have hpred : ((fun kv : Str × List MenuItem => kv.1 == j) ∘
      (fun kv : Str × List MenuItem => (kv.1, sortBy nameLe kv.2)))
      = (fun kv : Str × List MenuItem => kv.1 == j) := rfl
  rw [hpred]
  cases h : (buildMap l).find? (fun kv => kv.1 == j) with
  | none => rfl
  | some kv => rfl

theorem mapHas_groupedMap (l : List MenuItem) (j : Str) :
    mapHas (groupedMap l) j = mapHas (buildMap l) j := by
  unfold groupedMap mapHas
  rw [List.find?_map]
  have hpred : ((fun kv : Str × List MenuItem => kv.1 == j) ∘
      (fun kv : Str × List MenuItem => (kv.1, sortBy nameLe kv.2)))
      = (fun kv : Str × List MenuItem => kv.1 == j) := rfl
  rw [hpred]
  cases (buildMap l).find? (fun kv => kv.1 == j) <;> rfl

theorem grouped_entry_eq (l : List MenuItem) :
    grouped l = (preKeys l ++ postKeys l).map
      (fun k => (k, mapGet (groupedMap l) k)) := by
  unfold grouped preKeys postKeys
  rw [List.map_append]

theorem grouped_keys_eq (l : List MenuItem) :
    (grouped l).map Prod.fst = preKeys l ++ postKeys l := by
  rw [grouped_entry_eq, List.map_map]
  have hid : (Prod.fst ∘ fun k => (k, mapGet (groupedMap l) k)) = id := rfl
  rw [List.map_append, hid, List.map_id, List.map_id]

theorem groupedMap_keys_mem {l : List MenuItem} {j : Str} :
    j ∈ (groupedMap l).map Prod.fst
      ↔ j ∈ l.map (fun x => groupKey x.category) := by
  rw [groupedMap_keys]
  exact buildMap_keys_mem

theorem mem_preKeys {l : List MenuItem} {k : Str} :
    k ∈ preKeys l
      ↔ k ∈ CATEGORY_ORDER ∧ k ∈ l.map (fun x => groupKey x.category) := by
  unfold preKeys
  rw [List.mem_filter]
  constructor
  · rintro ⟨h1, h2⟩
    exact ⟨h1, groupedMap_keys_mem.mp (mapHas_iff.mp h2)⟩
  · rintro ⟨h1, h2⟩
    exact ⟨h1, mapHas_iff.mpr (groupedMap_keys_mem.mpr h2)⟩

theorem mem_postKeys {l : List MenuItem} {k : Str} :
    k ∈ postKeys l
      ↔ ¬k ∈ CATEGORY_ORDER ∧ k ∈ l.map (fun x => groupKey x.category) := by
  unfold postKeys
  rw [mem_sortBy, List.mem_filter]
  constructor
  · rintro ⟨h1, h2⟩
    refine ⟨?_, groupedMap_keys_mem.mp h1⟩
    simpa using h2
  · rintro ⟨h1, h2⟩
    refine ⟨groupedMap_keys_mem.mpr h2, ?_⟩
    simpa using h1

theorem CATEGORY_ORDER_nodup : CATEGORY_ORDER.Nodup := by decide

theorem preKeys_nodup (l : List MenuItem) : (preKeys l).Nodup :=
  CATEGORY_ORDER_nodup.filter _

theorem postKeys_nodup (l : List MenuItem) : (postKeys l).Nodup := by
  unfold postKeys
  refine (List.Perm.nodup_iff (sortBy_perm _ _)).mpr ?_
  refine List.Nodup.filter _ ?_
  rw [groupedMap_keys]
  exact buildMap_keys_nodup l

theorem allKeys_nodup (l : List MenuItem) : (preKeys l ++ postKeys l).Nodup := by
  refine (preKeys_nodup l).append (postKeys_nodup l) ?_
  intro a ha hb
  exact (mem_postKeys.mp hb).1 (mem_preKeys.mp ha).1

theorem allKeys_perm (l : List MenuItem) :
    (preKeys l ++ postKeys l) ~ (groupedMap l).map Prod.fst := by
  refine (List.perm_ext_iff_of_nodup (allKeys_nodup l) ?_).mpr ?_
  · rw [groupedMap_keys]
    exact buildMap_keys_nodup l
  · intro a
    rw [List.mem_append, mem_preKeys, mem_postKeys, groupedMap_keys_mem]
    by_cases hc : a ∈ CATEGORY_ORDER <;> tauto

theorem grouped_flatMap_perm (l : List MenuItem) :
    ((grouped l).flatMap (fun g => g.2)) ~ l := by
  rw [grouped_entry_eq, List.flatMap_map]
  refine (List.Perm.flatMap_right _ (allKeys_perm l)).trans ?_
  have h1 : ∀ k ∈ (groupedMap l).map Prod.fst,
      mapGet (groupedMap l) k ~ mapGet (buildMap l) k := by
    intro k _
    rw [mapGet_groupedMap]
    exact sortBy_perm _ _
  refine (List.Perm.flatMap_left _ h1).trans ?_
  rw [groupedMap_keys]
  have h2 := entries_eq_keys_map (buildMap l) (buildMap_keys_nodup l)
  have h3 : ((buildMap l).map Prod.fst).flatMap (fun k => mapGet (buildMap l) k)
      = (buildMap l).flatMap (fun kv => kv.2) := by
    conv_rhs => rw [h2, List.flatMap_map]
  rw [h3]
  exact buildMap_flatMap l

theorem grouped_group_contents {l : List MenuItem} {g : Str × List MenuItem}
    (hg : g ∈ grouped l) : ∀ x ∈ g.2, groupKey x.category = g.1 := by
  rw [grouped_entry_eq] at hg
  obtain ⟨k, hk, rfl⟩ := List.mem_map.mp hg
  intro x hx
  simp only at hx ⊢
  rw [mapGet_groupedMap, mem_sortBy, buildMap_get, List.mem_filter] at hx
  simpa using hx.2

theorem mem_grouped_self {l : List MenuItem} {x : MenuItem} (hx : x ∈ l) :
    (groupKey x.category, mapGet (groupedMap l) (groupKey x.category)) ∈ grouped l
      ∧ x ∈ mapGet (groupedMap l) (groupKey x.category) := by
  constructor
  · rw [grouped_entry_eq]
    refine List.mem_map.mpr ⟨groupKey x.category, ?_, rfl⟩
    rw [List.mem_append, mem_preKeys, mem_postKeys]
    have hmem : groupKey x.category ∈ l.map (fun y => groupKey y.category) :=
      List.mem_map.mpr ⟨x, hx, rfl⟩
    by_cases hc : groupKey x.category ∈ CATEGORY_ORDER
    · exact Or.inl ⟨hc, hmem⟩
    · exact Or.inr ⟨hc, hmem⟩
  · rw [mapGet_groupedMap, mem_sortBy, buildMap_get, List.mem_filter]
    exact ⟨hx, by simp⟩

/-- C1: for every filtered item list, the grouped output emits first every
group whose key is in the preferred category order list, in that order,
skipping keys absent from the data, then every remaining group key, sorted by
the Turkish-collation comparison also used within groups — a comparison whose
primary level is case-insensitive. -/
theorem grouped_emission_order (l : List MenuItem) :
    ∃ pre post,
      (grouped l).map Prod.fst = pre ++ post ∧
      pre <+ CATEGORY_ORDER ∧
      (∀ k, k ∈ pre ↔ k ∈ CATEGORY_ORDER
        ∧ k ∈ l.map (fun x => groupKey x.category)) ∧
      (∀ k, k ∈ post ↔ ¬k ∈ CATEGORY_ORDER
        ∧ k ∈ l.map (fun x => groupKey x.category)) ∧
      post.Pairwise (fun a b => trLe a b = true) ∧
      post.Pairwise (fun a b => ciLe a b = true) := by
  refine ⟨preKeys l, postKeys l, grouped_keys_eq l, List.filter_sublist _,
    fun k => mem_preKeys, fun k => mem_postKeys, ?_, ?_⟩
  · exact sortBy_sorted trLe_trans trLe_total _
  · exact (sortBy_sorted trLe_trans trLe_total _).imp fun h => trLe_imp_ciLe h

/-- C2: for every filtered item list, grouping is a partition: the groups
together hold exactly the input items (as a multiset), group keys are
pairwise distinct, and every item sits in the group bearing its own key. -/
theorem grouped_partition (l : List MenuItem) :
    ((grouped l).flatMap (fun g => g.2)) ~ l ∧
    ((grouped l).map Prod.fst).Nodup ∧
    ∀ g ∈ grouped l, ∀ x ∈ g.2, groupKey x.category = g.1 := by
  refine ⟨grouped_flatMap_perm l, ?_, fun g hg => grouped_group_contents hg⟩
  rw [grouped_keys_eq]
  exact allKeys_nodup l

theorem cmpAvail_transCmp : Batteries.TransCmp cmpAvail where
  symm x y := by
    cases hx : x.isAvailable <;> cases hy : y.isAvailable <;>
      simp [cmpAvail, hx, hy, Ordering.swap]
  le_trans {x y z} h1 h2 := by
    cases hx : x.isAvailable <;> cases hy : y.isAvailable <;>
      cases hz : z.isAvailable <;>
      simp_all [cmpAvail, hx, hy, hz]

theorem cmpCat_transCmp : Batteries.TransCmp cmpCat where
  symm x y := trCompare_swap x.category y.category
  le_trans h1 h2 := listCompare_trans _ _ _ h1 h2

theorem cmpName_transCmp : Batteries.TransCmp cmpName where
  symm x y := trCompare_swap x.name y.name
  le_trans h1 h2 := listCompare_trans _ _ _ h1 h2

theorem defaultCmp_eq_lex :
    defaultCmp = compareLex cmpAvail (compareLex cmpCat cmpName) := by
  funext a b
  unfold defaultCmp compareLex cmpAvail cmpCat cmpName
  by_cases hav : a.isAvailable != b.isAvailable
  · rw [if_pos hav, if_pos hav]
    cases a.isAvailable <;> rfl
  · rw [if_neg hav, if_neg hav]
    by_cases hc : trCompare a.category b.category ≠ Ordering.eq
    · rw [if_pos hc]
      show _ = Ordering.then _ _
      rcases hcc : trCompare a.category b.category with _ | _ | _ <;>
        simp_all [Ordering.then]
    · rw [if_neg hc]
      push_neg at hc
      show _ = Ordering.then _ _
      rw [hc]
      rfl

theorem defaultLe_trans (a b c : MenuItem) :
    ordLe (defaultCmp a b) → ordLe (defaultCmp b c) → ordLe (defaultCmp a c) := by
  haveI := cmpAvail_transCmp
  haveI := cmpCat_transCmp
  haveI := cmpName_transCmp
  rw [defaultCmp_eq_lex]
  simp only [ordLe_iff]
  exact Batteries.TransCmp.le_trans

theorem defaultLe_total (a b : MenuItem) :
    ordLe (defaultCmp a b) || ordLe (defaultCmp b a) := by
  haveI := cmpAvail_transCmp
  haveI := cmpCat_transCmp
  haveI := cmpName_transCmp
  rw [defaultCmp_eq_lex]
  rcases h : compareLex cmpAvail (compareLex cmpCat cmpName) a b with _ | _ | _ <;>
    simp [ordLe]
  have hswap :=
    @Batteries.OrientedCmp.symm _ (compareLex cmpAvail (compareLex cmpCat cmpName)) _ a b
  rw [h] at hswap
  rw [← hswap]
  rfl

theorem defaultCmp_eq_symm {a b : MenuItem} (h : defaultCmp a b = .eq) :
    defaultCmp b a = .eq := by
  haveI := cmpAvail_transCmp
  haveI := cmpCat_transCmp
  haveI := cmpName_transCmp
  rw [defaultCmp_eq_lex] at h ⊢
  exact Batteries.OrientedCmp.cmp_eq_eq_symm.mp h

theorem filteredMenu_default_eq (menu : List MenuItem) (search catF : Str) :
    filteredMenu menu search catF .default
      = sortBy (fun a b => ordLe (defaultCmp a b))
          (categoryFilterStep catF (searchFilterStep search menu)) := rfl

theorem defaultLe_imp_key {a b : MenuItem}
    (h : ordLe (defaultCmp a b) = true) :
    (a.isAvailable = true ∧ b.isAvailable = false) ∨
      (a.isAvailable = b.isAvailable ∧
        (trCompare a.category b.category = .lt ∨
          (a.category = b.category ∧ trCompare a.name b.name ≠ .gt))) := by
  rw [ordLe_iff] at h
  unfold defaultCmp at h
  by_cases hav : a.isAvailable != b.isAvailable
  · rw [if_pos hav] at h
    left
    cases ha : a.isAvailable <;> rw [ha] at h
    · simp at h
    · cases hb : b.isAvailable
      · exact ⟨rfl, rfl⟩
      · rw [ha, hb] at hav
        simp at hav
  · rw [if_neg hav] at h
    right
    refine ⟨by simpa using hav, ?_⟩
    by_cases hc : trCompare a.category b.category ≠ Ordering.eq
    · rw [if_pos hc] at h
      left
      rcases hcc : trCompare a.category b.category with _ | _ | _
      · rfl
      · exact absurd hcc hc
      · exact absurd hcc h
    · push_neg at hc
      rw [if_neg (by simp [hc])] at h
      exact Or.inr ⟨trCompare_eq_iff.mp hc, h⟩

/-- C3 counterexample: two available items with equal NORMALIZED categories
(differing only by a leading space) and names in the opposite order are left
by the admin default sort in an order that violates the claimed
(normalized-category, then name) ordering: the code compares raw categories,
so the space decides instead of the name. -/
theorem adminDefault_normalized_counterexample :
    cexI1.isAvailable = cexI2.isAvailable ∧
    normalize cexI1.category = normalize cexI2.category ∧
    trCompare cexI2.name cexI1.name = .lt ∧
    filteredMenu [cexI1, cexI2] [] sentinelAll .default = [cexI1, cexI2] ∧
    ¬(filteredMenu [cexI1, cexI2] [] sentinelAll .default).Pairwise
      specDefaultLe := by
  refine ⟨rfl, by decide, by decide, by decide, ?_⟩
  decide

/-- C3 amended: the admin default sort mode returns a permutation of the
filtered list that is sorted by availability (available first), then by the
RAW category string under Turkish collation (not the normalized category),
then by the name; items the comparator ties keep their original relative
order (stable tie-break). -/
theorem adminDefault_sort_ordering (menu : List MenuItem) (search catF : Str) :
    filteredMenu menu search catF .default
        ~ categoryFilterStep catF (searchFilterStep search menu) ∧
    (filteredMenu menu search catF .default).Pairwise (fun a b =>
      (a.isAvailable = true ∧ b.isAvailable = false) ∨
        (a.isAvailable = b.isAvailable ∧
          (trCompare a.category b.category = .lt ∨
            (a.category = b.category ∧ trCompare a.name b.name ≠ .gt)))) ∧
    (∀ a b, defaultCmp a b = .eq →
      [a, b] <+ categoryFilterStep catF (searchFilterStep search menu) →
      [a, b] <+ filteredMenu menu search catF .default) := by
  rw [filteredMenu_default_eq]
  refine ⟨sortBy_perm _ _, ?_, ?_⟩
  · exact (sortBy_sorted defaultLe_trans defaultLe_total _).imp
      fun h => defaultLe_imp_key h
  · intro a b hab hsub
    have h1 : ordLe (defaultCmp a b) = true := by rw [hab]; rfl
    have h2 : ordLe (defaultCmp b a) = true := by rw [defaultCmp_eq_symm hab]; rfl
    exact sortBy_pair defaultLe_trans defaultLe_total h1 h2 hsub

/-- Closed instantiation of the amended C3 theorem: two tied items (equal
availability, category and name) keep their original order in the admin
default sort. -/
theorem adminDefault_sort_ordering_witness :
    [cexW1, cexW2] <+ filteredMenu [cexW1, cexW2] [] sentinelAll .default :=
  (adminDefault_sort_ordering [cexW1, cexW2] [] sentinelAll).2.2 cexW1 cexW2
    (by decide) (List.Sublist.refl _)

/-! The filter steps (claims C4, C5, C6). -/

theorem categoryFilterStep_eq (sel : Str) (l : List MenuItem) :
    categoryFilterStep sel l
      = if sel = sentinelAll then l
        else l.filter (fun x => normalize x.category == normalize sel) := rfl

theorem searchFilterStep_eq (search : Str) (l : List MenuItem) :
    searchFilterStep search l
      = if (normalize search).isEmpty then l
        else l.filter (fun x =>
          jsIncludes (normalize x.name) (normalize search)
            || jsIncludes (normalize x.category) (normalize search)) := rfl

/-- C4: the category filter passes the list through when the sentinel ("no
filter") token is selected, and otherwise retains exactly the items whose
normalized category equals the normalized selection — an exact match on
normalized strings, preserving order and multiplicity. -/
theorem categoryFilter_spec (sel : Str) (l : List MenuItem) :
    (sel = sentinelAll → categoryFilterStep sel l = l) ∧
    (sel ≠ sentinelAll →
      categoryFilterStep sel l <+ l ∧
      (∀ x, x ∈ categoryFilterStep sel l
        ↔ x ∈ l ∧ normalize x.category = normalize sel) ∧
      (∀ x, (categoryFilterStep sel l).count x
        = if normalize x.category = normalize sel then l.count x else 0)) := by
  constructor
  · intro h
    rw [categoryFilterStep_eq, if_pos h]
  · intro h
    rw [categoryFilterStep_eq, if_neg h]
    refine ⟨List.filter_sublist _, fun x => ?_, fun x => ?_⟩
    · rw [List.mem_filter]
      simp
    · by_cases hx : normalize x.category = normalize sel
      · rw [if_pos hx, List.count_filter (by simpa using hx)]
      · rw [if_neg hx]
        refine List.count_eq_zero.mpr fun hmem => ?_
        have := List.mem_filter.mp hmem
        exact hx (by simpa using this.2)

/-- Closed instantiation of C4: with categories Burger and Toast and the
selection written in different case, only the Burger item remains. -/
theorem categoryFilter_spec_witness :
    wBurger ∈ categoryFilterStep (("burger").toList) [wBurger, wToast] ∧
    ¬wToast ∈ categoryFilterStep (("burger").toList) [wBurger, wToast] := by
  have h := (categoryFilter_spec (("burger").toList) [wBurger, wToast]).2
    (by decide)
  refine ⟨(h.2.1 wBurger).mpr ⟨by decide, by decide⟩, fun hc => ?_⟩
  exact absurd ((h.2.1 wToast).mp hc).2 (by decide)

/-- C5: the search filter passes the list through when the normalized query is
empty, and otherwise retains exactly the items whose normalized name or
normalized category has the normalized query as a substring, preserving order
and multiplicity. -/
theorem searchFilter_spec (search : Str) (l : List MenuItem) :
    ((normalize search).isEmpty = true → searchFilterStep search l = l) ∧
    ((normalize search).isEmpty = false →
      searchFilterStep search l <+ l ∧
      (∀ x, x ∈ searchFilterStep search l ↔ x ∈ l ∧
        (normalize search <:+: normalize x.name
          ∨ normalize search <:+: normalize x.category)) ∧
      (∀ x, (searchFilterStep search l).count x
        = if normalize search <:+: normalize x.name
              ∨ normalize search <:+: normalize x.category
          then l.count x else 0)) := by
  constructor
  · intro h
    rw [searchFilterStep_eq, if_pos h]
  · intro h
    rw [searchFilterStep_eq, if_neg (by simp [h])]
    refine ⟨List.filter_sublist _, fun x => ?_, fun x => ?_⟩
    · rw [List.mem_filter]
      simp [jsIncludes]
    · by_cases hx : normalize search <:+: normalize x.name
          ∨ normalize search <:+: normalize x.category
      · rw [if_pos hx, List.count_filter (by simpa [jsIncludes] using hx)]
      · rw [if_neg hx]
        refine List.count_eq_zero.mpr fun hmem => ?_
        have := List.mem_filter.mp hmem
        exact hx (by simpa [jsIncludes] using this.2)

/-- Closed instantiation of C5: the item named Burger Deluxe in category
Burger is retained for the query deluxe and excluded for the query pizza. -/
theorem searchFilter_spec_witness :
    wDeluxe ∈ searchFilterStep (("deluxe").toList) [wDeluxe] ∧
    ¬wDeluxe ∈ searchFilterStep (("pizza").toList) [wDeluxe] := by
  have h1 := (searchFilter_spec (("deluxe").toList) [wDeluxe]).2 (by decide)
  have h2 := (searchFilter_spec (("pizza").toList) [wDeluxe]).2 (by decide)
  refine ⟨(h1.2.1 wDeluxe).mpr ⟨by decide, Or.inl (by decide)⟩, fun hc => ?_⟩
  rcases ((h2.2.1 wDeluxe).mp hc).2 with h | h
  · exact absurd h (by decide)
  · exact absurd h (by decide)

/-- C6: the public availability filter returns the sublist of items with
`isAvailable` true (exactly those, order and multiplicity preserved), while
the admin pipeline without filters operates on the full item list: its output
is a permutation of the entire menu for every sort mode, unavailable items
included. -/
theorem availability_filter_spec (l : List MenuItem) :
    activeItems l <+ l ∧
    (∀ x, x ∈ activeItems l ↔ x ∈ l ∧ x.isAvailable = true) ∧
    (∀ x, (activeItems l).count x = if x.isAvailable then l.count x else 0) ∧
    (∀ mode : SortMode, filteredMenu l [] sentinelAll mode ~ l) := by
  unfold activeItems
  refine ⟨List.filter_sublist _, fun x => ?_, fun x => ?_, fun mode => ?_⟩
  · rw [List.mem_filter]
  · by_cases hx : x.isAvailable
    · rw [if_pos hx, List.count_filter (by simpa using hx)]
    · rw [if_neg hx]
      refine List.count_eq_zero.mpr fun hmem => ?_
      exact hx (by simpa using (List.mem_filter.mp hmem).2)
  · cases mode <;> exact sortBy_perm _ l

/-- C7: string normalization is a total function, maps an absent input to the
empty string, equals trim-then-lowercase on every present string, and is
idempotent. -/
theorem normalize_contract :
    normalizeOpt none = [] ∧
    (∀ s, normalizeOpt (some s) = jsToLower (jsTrim s)) ∧
    (∀ s, normalize (normalize s) = normalize s) :=
  ⟨rfl, fun s => normalize_eq s, fun s => normalize_idem s⟩

/-- C8: a create/update attempt whose name or category is blank after
trimming, or whose price is non-finite or negative, is stopped by client-side
validation: the handler raises the alert and issues no network request. -/
theorem validation_blocks_request (n c : Str) (p : JsNum) (av : Bool)
    (img desc : Str)
    (h : (jsTrim n).isEmpty = true ∨ (jsTrim c).isEmpty = true ∨
      p.isFinite = false ∨ p.isNeg = true) :
    ∃ msg, createItem n p c av img desc = .alert msg := by
  unfold createItem
  suffices hv : ∃ msg, validateItem n c p = some msg by
    obtain ⟨msg, hm⟩ := hv
    rw [hm]
    exact ⟨msg, rfl⟩
  unfold validateItem
  by_cases h1 : (jsTrim n).isEmpty = true
  · rw [if_pos h1]
    exact ⟨_, rfl⟩
  · rw [if_neg h1]
    by_cases h2 : (jsTrim c).isEmpty = true
    · rw [if_pos h2]
      exact ⟨_, rfl⟩
    · rw [if_neg h2]
      by_cases h3 : p.isFinite = true
      · rw [if_neg (by simp [h3])]
        have h4 : p.isNeg = true := by
          rcases h with h | h | h | h
          · exact absurd h h1
          · exact absurd h h2
          · rw [h3] at h
            cases h
          · exact h
        rw [if_pos h4]
        exact ⟨_, rfl⟩
      · have h3f : p.isFinite = false := by
          cases hf : p.isFinite
          · rfl
          · exact absurd hf h3
        rw [if_pos (by rw [h3f]; rfl)]
        exact ⟨_, rfl⟩

/-- Closed instantiation of C8: creating an item with price minus five is
rejected with an alert before any request. -/
theorem validation_blocks_request_witness :
    ∃ msg, createItem (("x").toList) (.fin (-5)) (("y").toList) true [] []
      = .alert msg :=
  validation_blocks_request (("x").toList) (("y").toList) (.fin (-5)) true [] []
    (by decide)

/-! Claim C10: trimmed-but-not-lowercased group keys versus the fully
normalized category filter. -/

theorem groupKey_of_trim_ne {c : Str} (h : ¬jsTrim c = []) :
    groupKey c = jsTrim c := by
  have hc : ¬c.isEmpty = true := by
    intro hic
    rw [List.isEmpty_iff.mp hic] at h
    exact h rfl
  simp only [groupKey]
  rw [if_neg hc, if_neg (fun hh => h (List.isEmpty_iff.mp hh))]

theorem trim_ne_nil_of_normalize {x y : Str}
    (hnorm : normalize x = normalize y) (htrim : jsTrim x ≠ jsTrim y) :
    ¬jsTrim x = [] := by
  intro h0
  apply htrim
  rw [h0]
  have h1 : normalize x = [] := by
    rw [normalize_eq, h0]
    rfl
  have h2 : normalize y = [] := hnorm ▸ h1
  rw [normalize_eq] at h2
  unfold jsToLower at h2
  exact (List.map_eq_nil_iff.mp h2).symm

/-- C10: the grouping key is the trimmed but not lowercased category, while
the category filter compares fully normalized categories; hence two items
whose categories differ only in letter case are both retained (or both
dropped) by any category filter selection, yet are placed into two distinct
groups of the grouped output. -/
theorem groupKey_vs_categoryFilter (l : List MenuItem) (sel : Str)
    (x y : MenuItem) (hx : x ∈ l) (hy : y ∈ l)
    (hnorm : normalize x.category = normalize y.category)
    (htrim : jsTrim x.category ≠ jsTrim y.category) :
    (x ∈ categoryFilterStep sel l ↔ y ∈ categoryFilterStep sel l) ∧
    groupKey x.category ≠ groupKey y.category ∧
    ∃ gx gy, gx ∈ grouped l ∧ gy ∈ grouped l ∧
      x ∈ gx.2 ∧ y ∈ gy.2 ∧ gx.1 ≠ gy.1 := by
  have htx : ¬jsTrim x.category = [] := trim_ne_nil_of_normalize hnorm htrim
  have hty : ¬jsTrim y.category = [] :=
    trim_ne_nil_of_normalize hnorm.symm (fun hh => htrim hh.symm)
  have hkey : groupKey x.category ≠ groupKey y.category := by
    rw [groupKey_of_trim_ne htx, groupKey_of_trim_ne hty]
    exact htrim
  refine ⟨?_, hkey, ?_⟩
  · by_cases hsel : sel = sentinelAll
    · rw [categoryFilterStep_eq, if_pos hsel]
      exact ⟨fun _ => hy, fun _ => hx⟩
    · rw [categoryFilterStep_eq, if_neg hsel]
      rw [List.mem_filter, List.mem_filter]
      constructor
      · rintro ⟨_, hpx⟩
        refine ⟨hy, ?_⟩
        rw [← hnorm]
        exact hpx
      · rintro ⟨_, hpy⟩
        refine ⟨hx, ?_⟩
        rw [hnorm]
        exact hpy
  · obtain ⟨hgx1, hgx2⟩ := mem_grouped_self hx
    obtain ⟨hgy1, hgy2⟩ := mem_grouped_self hy
    exact ⟨_, _, hgx1, hgy1, hgx2, hgy2, hkey⟩

/-- Closed instantiation of C10: with categories Burger and burger, the same
case-insensitive filter selection keeps both items, yet the grouped output
puts them in two groups with different keys. -/
theorem groupKey_vs_categoryFilter_witness :
    (wBurger ∈ categoryFilterStep (("burger").toList) [wBurger, wLowerB]
      ↔ wLowerB ∈ categoryFilterStep (("burger").toList) [wBurger, wLowerB]) ∧
    groupKey wBurger.category ≠ groupKey wLowerB.category ∧
    ∃ gx gy, gx ∈ grouped [wBurger, wLowerB] ∧ gy ∈ grouped [wBurger, wLowerB] ∧
      wBurger ∈ gx.2 ∧ wLowerB ∈ gy.2 ∧ gx.1 ≠ gy.1 :=
  groupKey_vs_categoryFilter [wBurger, wLowerB] (("burger").toList) wBurger
    wLowerB (by decide) (by decide) (by decide) (by decide)

theorem Store.read_write_ne (σ : Store) {r s : Nat} (v : List MenuItem)
    (h : r ≠ s) : (σ.write s v).read r = σ.read r := by
  unfold read write
  simp only [if_neg h]

theorem Store.write_next (σ : Store) (r : Nat) (v : List MenuItem) :
    (σ.write r v).next = σ.next := rfl

theorem Store.read_alloc_lt (σ : Store) (v : List MenuItem) {r : Nat}
    (h : r < σ.next) : (σ.alloc v).2.read r = σ.read r := by
  unfold read alloc
  simp only
  rw [if_neg (by omega)]

theorem Store.read_alloc_self (σ : Store) (v : List MenuItem) :
    (σ.alloc v).2.read (σ.alloc v).1 = v := by
  unfold read alloc
  simp

theorem Store.alloc_next (σ : Store) (v : List MenuItem) :
    (σ.alloc v).2.next = σ.next + 1 := rfl

theorem Store.alloc_fst (σ : Store) (v : List MenuItem) :
    (σ.alloc v).1 = σ.next := rfl

theorem allocGroups_next_mono :
    ∀ (gs : List (Str × List MenuItem)) (σ : Store),
      σ.next ≤ (allocGroups gs σ).2.next
  | [], _ => Nat.le_refl _
  | kv :: rest, σ => by
      simp only [allocGroups]
      have h1 := allocGroups_next_mono rest (σ.alloc kv.2).2
      rw [Store.alloc_next] at h1
      omega

theorem allocGroups_read_lt :
    ∀ (gs : List (Str × List MenuItem)) (σ : Store) {r : Nat}, r < σ.next →
      (allocGroups gs σ).2.read r = σ.read r
  | [], _, _, _ => rfl
  | kv :: rest, σ, r, h => by
      simp only [allocGroups]
      rw [allocGroups_read_lt rest (σ.alloc kv.2).2
          (by rw [Store.alloc_next]; omega),
        Store.read_alloc_lt σ kv.2 h]

theorem allocGroups_refs_ge :
    ∀ (gs : List (Str × List MenuItem)) (σ : Store),
      ∀ kr ∈ (allocGroups gs σ).1, σ.next ≤ kr.2
  | [], _, kr, h => absurd h (List.not_mem_nil kr)
  | kv :: rest, σ, kr, h => by
      simp only [allocGroups, List.mem_cons] at h
      rcases h with rfl | h
      · exact Nat.le_refl _
      · have := allocGroups_refs_ge rest (σ.alloc kv.2).2 kr h
        rw [Store.alloc_next] at this
        omega

theorem sortGroupsInPlace_next :
    ∀ (refs : List (Str × Nat)) (σ : Store),
      (sortGroupsInPlace refs σ).next = σ.next
  | [], _ => rfl
  | kr :: rest, σ => by
      simp only [sortGroupsInPlace]
      rw [sortGroupsInPlace_next rest _, Store.write_next]

theorem sortGroupsInPlace_read_ne :
    ∀ (refs : List (Str × Nat)) (σ : Store) {r : Nat},
      (∀ kr ∈ refs, r ≠ kr.2) →
      (sortGroupsInPlace refs σ).read r = σ.read r
  | [], _, _, _ => rfl
  | kr :: rest, σ, r, h => by
      simp only [sortGroupsInPlace]
      rw [sortGroupsInPlace_read_ne rest _
          (fun kr2 h2 => h kr2 (List.mem_cons_of_mem kr h2)),
        Store.read_write_ne σ _ (h kr (List.mem_cons_self kr rest))]

theorem Store.read_write_self (σ : Store) (r : Nat) (v : List MenuItem) :
    (σ.write r v).read r = v := by
  unfold read write
  simp

theorem filteredMenu_eq_sortBy (menu : List MenuItem) (search catF : Str)
    (mode : SortMode) :
    filteredMenu menu search catF mode
      = sortBy (adminSortLe mode)
          (categoryFilterStep catF (searchFilterStep search menu)) := by
  cases mode <;> rfl

theorem Store.read_alloc_lt2 (σ0 : Store) (v1 v2 : List MenuItem) {r : Nat}
    (h : r < σ0.next) :
    ((σ0.alloc v1).2.alloc v2).2.read r = σ0.read r := by
  rw [Store.read_alloc_lt _ _ (by simp only [Store.alloc_next]; omega)]
  exact Store.read_alloc_lt σ0 _ h

theorem Store.read_alloc_lt3 (σ0 : Store) (v1 v2 v3 : List MenuItem) {r : Nat}
    (h : r < σ0.next) :
    (((σ0.alloc v1).2.alloc v2).2.alloc v3).2.read r = σ0.read r := by
  rw [Store.read_alloc_lt _ _ (by simp only [Store.alloc_next]; omega)]
  exact Store.read_alloc_lt2 σ0 _ _ h

theorem publicPipelineSt_cases (σ0 : Store) (allRef : Nat)
    (cat search : Str) :
    ∃ (σ3 : Store) (fRef : Nat),
      publicPipelineSt σ0 allRef cat search
        = ((allocGroups (buildMap (σ3.read fRef)) σ3).1, fRef,
            sortGroupsInPlace (allocGroups (buildMap (σ3.read fRef)) σ3).1
              (allocGroups (buildMap (σ3.read fRef)) σ3).2) ∧
      (∀ r, r < σ0.next → σ3.read r = σ0.read r) ∧
      σ0.next ≤ fRef ∧ fRef < σ3.next ∧ σ0.next ≤ σ3.next ∧
      σ3.read fRef = publicFiltered (σ0.read allRef) cat search := by
  simp only [publicPipelineSt]
  unfold publicFiltered activeItems
  rw [categoryFilterStep_eq, searchFilterStep_eq]
  by_cases hcat : cat = sentinelAll <;>
    by_cases hq : (normalize search).isEmpty = true
  · rw [if_pos hcat, if_pos hq, if_pos hcat, if_pos hq]
    simp only [Prod.mk.eta]
    refine ⟨_, _, rfl, ?_, ?_, ?_, ?_, ?_⟩
    · intro r hr
      exact Store.read_alloc_lt σ0 _ hr
    · simp only [Store.alloc_fst, Store.alloc_next]
      omega
    · simp only [Store.alloc_fst, Store.alloc_next]
      omega
    · simp only [Store.alloc_next]
      omega
    · simp only [Store.read_alloc_self]
  · rw [if_pos hcat, if_neg hq, if_pos hcat, if_neg hq]
    simp only [Prod.mk.eta]
    refine ⟨_, _, rfl, ?_, ?_, ?_, ?_, ?_⟩
    · intro r hr
      exact Store.read_alloc_lt2 σ0 _ _ hr
    · simp only [Store.alloc_fst, Store.alloc_next]
      omega
    · simp only [Store.alloc_fst, Store.alloc_next]
      omega
    · simp only [Store.alloc_next]
      omega
    · simp only [Store.read_alloc_self]
  · rw [if_neg hcat, if_pos hq, if_neg hcat, if_pos hq]
    simp only [Prod.mk.eta]
    refine ⟨_, _, rfl, ?_, ?_, ?_, ?_, ?_⟩
    · intro r hr
      exact Store.read_alloc_lt2 σ0 _ _ hr
    · simp only [Store.alloc_fst, Store.alloc_next]
      omega
    · simp only [Store.alloc_fst, Store.alloc_next]
      omega
    · simp only [Store.alloc_next]
      omega
    · simp only [Store.read_alloc_self]
  · rw [if_neg hcat, if_neg hq, if_neg hcat, if_neg hq]
    refine ⟨_, _, rfl, ?_, ?_, ?_, ?_, ?_⟩
    · intro r hr
      exact Store.read_alloc_lt3 σ0 _ _ _ hr
    · simp only [Store.alloc_fst, Store.alloc_next]
      omega
    · simp only [Store.alloc_fst, Store.alloc_next]
      omega
    · simp only [Store.alloc_next]
      omega
    · simp only [Store.read_alloc_self]

theorem adminPipelineSt_cases (σ0 : Store) (menuRef : Nat)
    (search catF : Str) (mode : SortMode) :
    ∃ (σ3 : Store) (iRef : Nat),
      adminPipelineSt σ0 menuRef search catF mode
        = (iRef, σ3.write iRef (sortBy (adminSortLe mode) (σ3.read iRef))) ∧
      (∀ r, r < σ0.next → σ3.read r = σ0.read r) ∧
      σ0.next ≤ iRef ∧ iRef < σ3.next ∧ σ0.next ≤ σ3.next ∧
      σ3.read iRef = categoryFilterStep catF (searchFilterStep search
        (σ0.read menuRef)) := by
  simp only [adminPipelineSt]
  rw [categoryFilterStep_eq, searchFilterStep_eq]
  by_cases hq : (normalize search).isEmpty = true <;>
    by_cases hcat : catF = sentinelAll
  · rw [if_pos hq, if_pos hcat, if_pos hcat, if_pos hq]
    simp only [Prod.mk.eta]
    refine ⟨_, _, rfl, ?_, ?_, ?_, ?_, ?_⟩
    · intro r hr
      exact Store.read_alloc_lt σ0 _ hr
    · simp only [Store.alloc_fst, Store.alloc_next]
      omega
    · simp only [Store.alloc_fst, Store.alloc_next]
      omega
    · simp only [Store.alloc_next]
      omega
    · simp only [Store.read_alloc_self]
  · rw [if_pos hq, if_neg hcat, if_neg hcat, if_pos hq]
    simp only [Prod.mk.eta]
    refine ⟨_, _, rfl, ?_, ?_, ?_, ?_, ?_⟩
    · intro r hr
      exact Store.read_alloc_lt2 σ0 _ _ hr
    · simp only [Store.alloc_fst, Store.alloc_next]
      omega
    · simp only [Store.alloc_fst, Store.alloc_next]
      omega
    · simp only [Store.alloc_next]
      omega
    · simp only [Store.read_alloc_self]
  · rw [if_neg hq, if_pos hcat, if_pos hcat, if_neg hq]
    simp only [Prod.mk.eta]
    refine ⟨_, _, rfl, ?_, ?_, ?_, ?_, ?_⟩
    · intro r hr
      exact Store.read_alloc_lt2 σ0 _ _ hr
    · simp only [Store.alloc_fst, Store.alloc_next]
      omega
    · simp only [Store.alloc_fst, Store.alloc_next]
      omega
    · simp only [Store.alloc_next]
      omega
    · simp only [Store.read_alloc_self]
  · rw [if_neg hq, if_neg hcat, if_neg hcat, if_neg hq]
    refine ⟨_, _, rfl, ?_, ?_, ?_, ?_, ?_⟩
    · intro r hr
      exact Store.read_alloc_lt3 σ0 _ _ _ hr
    · simp only [Store.alloc_fst, Store.alloc_next]
      omega
    · simp only [Store.alloc_fst, Store.alloc_next]
      omega
    · simp only [Store.alloc_next]
      omega
    · simp only [Store.read_alloc_self]

/-- C9: running the pipeline (public or admin variant) mutates no
pre-existing array: every array allocated before the run, the source list in
particular, reads back unchanged; the returned views are freshly allocated
arrays, and their contents are exactly the pure projections (`publicFiltered`,
`filteredMenu`) of the source list. -/
theorem pipelines_no_mutation (σ : Store) (srcRef : Nat) (h : srcRef < σ.next)
    (cat search : Str) (mode : SortMode) :
    ((publicPipelineSt σ srcRef cat search).2.2.read srcRef = σ.read srcRef ∧
      (∀ r, r < σ.next →
        (publicPipelineSt σ srcRef cat search).2.2.read r = σ.read r) ∧
      σ.next ≤ (publicPipelineSt σ srcRef cat search).2.1 ∧
      (∀ kr ∈ (publicPipelineSt σ srcRef cat search).1, σ.next ≤ kr.2) ∧
      (publicPipelineSt σ srcRef cat search).2.2.read
          (publicPipelineSt σ srcRef cat search).2.1
        = publicFiltered (σ.read srcRef) cat search) ∧
    ((adminPipelineSt σ srcRef search cat mode).2.read srcRef = σ.read srcRef ∧
      (∀ r, r < σ.next →
        (adminPipelineSt σ srcRef search cat mode).2.read r = σ.read r) ∧
      σ.next ≤ (adminPipelineSt σ srcRef search cat mode).1 ∧
      (adminPipelineSt σ srcRef search cat mode).2.read
          (adminPipelineSt σ srcRef search cat mode).1
        = filteredMenu (σ.read srcRef) search cat mode) := by
  constructor
  · obtain ⟨σ3, fRef, heq, hreads, hge, hlt, hnl, hcontent⟩ :=
      publicPipelineSt_cases σ srcRef cat search
    have heq1 : (publicPipelineSt σ srcRef cat search).1
        = (allocGroups (buildMap (σ3.read fRef)) σ3).1 := by rw [heq]
    have heq2 : (publicPipelineSt σ srcRef cat search).2.1 = fRef := by rw [heq]
    have heq3 : (publicPipelineSt σ srcRef cat search).2.2
        = sortGroupsInPlace (allocGroups (buildMap (σ3.read fRef)) σ3).1
            (allocGroups (buildMap (σ3.read fRef)) σ3).2 := by rw [heq]
    have hrefs := allocGroups_refs_ge (buildMap (σ3.read fRef)) σ3
    have hreadlow : ∀ r, r < σ.next →
        (publicPipelineSt σ srcRef cat search).2.2.read r = σ.read r := by
      intro r hr
      rw [heq3]
      rw [sortGroupsInPlace_read_ne _ _ (fun kr hk => by
        have := hrefs kr hk
        omega)]
      rw [allocGroups_read_lt _ _ (by omega)]
      exact hreads r hr
    refine ⟨hreadlow srcRef h, hreadlow, ?_, ?_, ?_⟩
    · rw [heq2]
      exact hge
    · intro kr hk
      rw [heq1] at hk
      have := hrefs kr hk
      omega
    · rw [heq2, heq3]
      rw [sortGroupsInPlace_read_ne _ _ (fun kr hk => by
        have := hrefs kr hk
        omega)]
      rw [allocGroups_read_lt _ _ hlt]
      exact hcontent
  · obtain ⟨σ3, iRef, heq, hreads, hge, hlt, hnl, hcontent⟩ :=
      adminPipelineSt_cases σ srcRef search cat mode
    have heq1 : (adminPipelineSt σ srcRef search cat mode).1 = iRef := by
      rw [heq]
    have heq2 : (adminPipelineSt σ srcRef search cat mode).2
        = σ3.write iRef (sortBy (adminSortLe mode) (σ3.read iRef)) := by
      rw [heq]
    have hreadlow : ∀ r, r < σ.next →
        (adminPipelineSt σ srcRef search cat mode).2.read r = σ.read r := by
      intro r hr
      rw [heq2]
      rw [Store.read_write_ne _ _ (by omega)]
      exact hreads r hr
    refine ⟨hreadlow srcRef h, hreadlow, ?_, ?_⟩
    · rw [heq1]
      exact hge
    · rw [heq1, heq2]
      rw [Store.read_write_self, hcontent, filteredMenu_eq_sortBy]

/-- Closed instantiation of C9: on a concrete heap, both pipelines leave the
source array unchanged. -/
theorem pipelines_no_mutation_witness :
    0 < demoStore.next ∧
    (publicPipelineSt demoStore 0 sentinelAll []).2.2.read 0
      = demoStore.read 0 ∧
    (adminPipelineSt demoStore 0 [] sentinelAll .default).2.read 0
      = demoStore.read 0 :=
  ⟨by decide,
    (pipelines_no_mutation demoStore 0 (by decide) sentinelAll [] .default).1.1,
    (pipelines_no_mutation demoStore 0 (by decide) sentinelAll [] .default).2.1⟩

end QrMenu
